import Mathlib

/-!
Verification development for the bounded text-chunking and sequential
translation pipeline of `大文件AI翻译/AI文件翻译.py`.

Text is modelled as `List Char`.  Python functions are translated into
executable Lean definitions:

* `pyStrip`        models `str.strip()` (no arguments);
* `pySplitlines`   models `str.splitlines(keepends)`;
* `sentence_split` models the regex-based `sentence_split`;
* `chunk_text_by_lines_with_overflow` models the chunker (the `while`
  loop becomes a fuel-indexed step iteration; `none` means the fuel ran
  out, and a separate theorem shows the chosen fuel always suffices when
  `1 ≤ maxChars`);
* `callModelWithRetry` models `ChunkTranslator._call_model_with_retry`
  (sleep durations are recorded as rationals instead of floats; the
  durations appearing in the claims are `backoff * 2^attempt`, which is
  exact in both models);
* `translate_chunks` models `ChunkTranslator.translate_chunks`, with the
  progress/log callbacks modelled as recorded event lists, and two extra
  instrumentation traces (`contexts`, `callResults`) that record the
  `prev_context` value used for each chunk and the outcome of each
  `_call_model_with_retry` call.
-/

set_option maxRecDepth 8000

namespace AITrans

/-- Characters for which Python `str.isspace()` holds; this single
predicate models both the set stripped by `str.strip()` and the regex
class `\s` (Python's `re` with a `str` pattern uses the same Unicode
whitespace set). -/
def isSpaceChar (c : Char) : Bool :=
  c == ' ' || c == '\t' || c == '\n' || c == '\x0d' || c == '\x0b' || c == '\x0c' ||
  c == '\x1c' || c == '\x1d' || c == '\x1e' || c == '\x1f' || c == '\x85' || c == '\xa0' ||
  c == '\u1680' || (decide ('\u2000' ≤ c) && decide (c ≤ '\u200A')) || c == '\u2028' ||
  c == '\u2029' || c == '\u202F' || c == '\u205F' || c == '\u3000'

/-- Python `s.strip()`: drop whitespace from both ends. -/
def pyStrip (l : List Char) : List Char :=
  ((l.dropWhile isSpaceChar).reverse.dropWhile isSpaceChar).reverse

/-- Line-boundary characters of Python `str.splitlines` (besides the
two-character boundary `"\r\n"`, handled separately). -/
def isLineBreakChar (c : Char) : Bool :=
  c == '\n' || c == '\r' || c == '\x0b' || c == '\x0c' || c == '\x1c' ||
  c == '\x1d' || c == '\x1e' || c == '\x85' || c == '\u2028' || c == '\u2029'

/-- Worker for `pySplitlines`: `acc` holds the reversed chars of the
current (unterminated) line. -/
def splitlinesAux (keepends : Bool) : List Char → List Char → List (List Char)
  | [], acc => if acc.isEmpty then [] else [acc.reverse]
  | [c], acc =>
      if isLineBreakChar c then
        (acc.reverse ++ if keepends then [c] else []) :: splitlinesAux keepends [] []
      else
        splitlinesAux keepends [] (c :: acc)
  | c :: c2 :: rest, acc =>
      if c == '\r' && c2 == '\n' then
        (acc.reverse ++ if keepends then ['\r', '\n'] else []) :: splitlinesAux keepends rest []
      else if isLineBreakChar c then
        (acc.reverse ++ if keepends then [c] else []) :: splitlinesAux keepends (c2 :: rest) []
      else
        splitlinesAux keepends (c2 :: rest) (c :: acc)

/-- Python `text.splitlines(keepends)`. -/
def pySplitlines (keepends : Bool) (l : List Char) : List (List Char) :=
  splitlinesAux keepends l []

/-- The character class `[。！？\!\?]` of the sentence-split regex. -/
def isTermChar (c : Char) : Bool :=
  c == '。' || c == '！' || c == '？' || c == '!' || c == '?'

/-- Length of the leading whitespace run (the greedy `\s+`). -/
def wsRunLen (l : List Char) : Nat := (l.takeWhile isSpaceChar).length

/-- Match of the group `(\s+|$)` (with `re.M`, `$` also matches before a
newline, but a newline is whitespace so `\s+` is always preferred there;
hence only end-of-string matters for `$`): returns the number of
consumed characters. -/
def matchGroup2 (rest : List Char) : Option Nat :=
  let r := wsRunLen rest
  if 0 < r then some r
  else if rest.isEmpty then some 0
  else none

/-- Greedy match of `\.{1,3}` followed by `(\s+|$)` on `s` (whose head is
a dot), trying `k` dots down to one dot, as the regex engine backtracks. -/
def tryDots (s : List Char) : Nat → Option Nat
  | 0 => none
  | k + 1 =>
      match matchGroup2 (s.drop (k + 1)) with
      | some r => some (k + 1 + r)
      | none => tryDots s k

/-- Attempt to match the full pattern `([。！？\!\?]|\.{1,3})(\s+|$)` at
the start of `s`; returns the total match length. -/
def matchAt : List Char → Option Nat
  | [] => none
  | c :: rest =>
      if isTermChar c then (matchGroup2 rest).map (· + 1)
      else if c == '.' then
        tryDots (c :: rest) (min 3 ((c :: rest).takeWhile (· == '.')).length)
      else none

/-- The `re.finditer` scan of `sentence_split`: returns the stripped
matched segments (`text[last:end].strip()` for each match, in order)
and the raw leftover `text[last:]` after the final match.  `seg` holds
the reversed chars seen since the end of the previous match.  The
recursion is driven by a fuel argument so that it is structural (and
hence computes inside the kernel); every step consumes at least one
character, so `s.length + 1` fuel always reaches the nil case, and the
fuel-exhausted equation is unreachable for the fuel used below. -/
def sentenceScan : Nat → List Char → List Char → List (List Char) × List Char
  | 0, s, seg => ([], seg.reverse ++ s)
  | _ + 1, [], seg => ([], seg.reverse)
  | fuel + 1, c :: rest, seg =>
      match matchAt (c :: rest) with
      | some m =>
          let res := sentenceScan fuel ((c :: rest).drop m) []
          (pyStrip (seg.reverse ++ (c :: rest).take m) :: res.1, res.2)
      | none => sentenceScan fuel rest (c :: seg)

/-- Model of `sentence_split(text)` from the source: regex scan with
stripped parts, stripped non-empty tail, line-based fallback when no
part was found, and a final filter dropping empty parts. -/
def sentence_split (text : List Char) : List (List Char) :=
  let scan := sentenceScan (text.length + 1) text []
  let parts1 := scan.1 ++
    (if scan.2.isEmpty then []
     else let tail := pyStrip scan.2
          if tail.isEmpty then [] else [tail])
  let parts2 :=
    if parts1.isEmpty then
      ((pySplitlines false text).map pyStrip).filter (fun p => !p.isEmpty)
    else parts1
  parts2.filter (fun p => !p.isEmpty)

/-- A chunk record `{'text': ..., 'sentences': ...}`. -/
structure Chunk where
  text : List Char
  sentences : List (List Char)
deriving DecidableEq, Repr

/-- Instrumentation tag naming the program point that produced a chunk:
`overflowFlush` = flush after appending a line within the overflow
tolerance; `fallback` = the sentence-level sub-split of a single
oversized line; `lineCut` = the backward newline-boundary cut inside the
accumulated buffer; `hardCut` = the hard character cut at `max_chars`;
`minFlush` = flush of a buffer of at least `min_chunk_chars`;
`forcedFlush` = the undersized-buffer branch that appends the oversized
line and flushes; `finalFlush` = the flush after the loop. -/
inductive ChunkOrigin where
  | overflowFlush | fallback | lineCut | hardCut | minFlush | forcedFlush | finalFlush
deriving DecidableEq, Repr

/-- Loop state of `chunk_text_by_lines_with_overflow`: line index `i`,
buffer `buf`, its tracked length `buf_len`, and the chunks emitted so
far (tagged with their origin). -/
structure CState where
  i : Nat
  buf : List (List Char)
  bufLen : Nat
  chunks : List (Chunk × ChunkOrigin)
deriving Repr

/-- `flush_buf`: join the buffer, strip it, emit a chunk when the result
is non-empty, and clear the buffer. -/
def flush_buf (o : ChunkOrigin) (st : CState) : CState :=
  if st.buf.isEmpty then st
  else
    let joined := pyStrip st.buf.join
    { st with
      buf := []
      bufLen := 0
      chunks := st.chunks ++
        (if joined.isEmpty then [] else [(⟨joined, sentence_split joined⟩, o)]) }

/-- The sentence-level sub-split applied to a single line that exceeds
`max_chars + overflow` while the buffer is empty.  Walks the sentences,
flushing `cur` when the next sentence would exceed `max_chars`, and
re-seeding `cur` with its trailing `overlap_sentences` elements
(`cur[-overlap_sentences:]` when `overlap_sentences` is truthy and
`len(cur) >= overlap_sentences`, else `[]`).  Returns the chunks flushed
inside the loop and the final `cur`. -/
def sentenceSubSplit (maxChars overlapSentences : Nat) :
    List (List Char) → List (List Char) → Nat → List Chunk → List Chunk × List (List Char)
  | [], cur, _, acc => (acc, cur)
  | s :: ss, cur, curLen, acc =>
      if curLen + s.length ≤ maxChars ∨ cur = [] then
        sentenceSubSplit maxChars overlapSentences ss (cur ++ [s]) (curLen + s.length) acc
      else
        let c : Chunk := ⟨pyStrip cur.join, cur⟩
        let cur2 := if overlapSentences ≠ 0 ∧ overlapSentences ≤ cur.length then
            cur.drop (cur.length - overlapSentences) else []
        let len2 := (cur2.map List.length).sum
        sentenceSubSplit maxChars overlapSentences ss (cur2 ++ [s]) (len2 + s.length) (acc ++ [c])

/-- Python `accumulated[pos - 1] == '\n'`, including the negative-index
semantics at `pos = 0` (where `accumulated[-1]` is the last character). -/
def cutCharIsNewline (acc : List Char) : Nat → Bool
  | 0 => acc.getLast? == some '\n'
  | p + 1 => acc.get? p == some '\n'

/-- The backward search `for pos in range(search_start, lower_bound - 1, -1)`
for a newline at `accumulated[pos - 1]`: first (largest) hit, or `none`. -/
def findCut (acc : List Char) (lo : Nat) : Nat → Option Nat
  | 0 => if 0 < lo then none else if cutCharIsNewline acc 0 then some 0 else none
  | hi + 1 =>
      if hi + 1 < lo then none
      else if cutCharIsNewline acc (hi + 1) then some (hi + 1)
      else findCut acc lo hi

/-- One iteration of the chunker's `while` loop, on the line `lines[i]`.
Every branch of the loop body either advances `i` or reshapes the
buffer; all of them continue the loop, so the body is a pure state
transformer. -/
def chunkStep (maxChars overflow minChunkChars overlapSentences : Nat)
    (st : CState) (line : List Char) : CState :=
  let lineLen := line.length
  if st.bufLen + lineLen ≤ maxChars then
    { st with
      buf := st.buf ++ [line]
      bufLen := st.bufLen + lineLen
      i := st.i + 1 }
  else if st.bufLen + lineLen ≤ maxChars + overflow then
    let st2 := flush_buf .overflowFlush
      { st with buf := st.buf ++ [line], bufLen := st.bufLen + lineLen }
    { st2 with i := st.i + 1 }
  else
    let accumulated := st.buf.join
    if accumulated.length = 0 then
      let sents := sentence_split line
      let res := sentenceSubSplit maxChars overlapSentences sents [] 0 []
      let produced := res.1 ++ if res.2.isEmpty then [] else [⟨pyStrip res.2.join, res.2⟩]
      { st with
        chunks := st.chunks ++ produced.map (fun c => (c, ChunkOrigin.fallback))
        i := st.i + 1 }
    else
      let accLen := accumulated.length
      let lowerBound := maxChars - overflow
      let cutPos := if lowerBound ≤ accLen then
          findCut accumulated lowerBound (min accLen maxChars) else none
      match cutPos with
      | some (p + 1) =>
          let head := accumulated.take (p + 1)
          let tail := accumulated.drop (p + 1)
          { st with
            chunks := st.chunks ++ [(⟨pyStrip head, sentence_split (pyStrip head)⟩, .lineCut)]
            buf := [tail]
            bufLen := tail.length }
      | _ =>
          if maxChars ≤ accLen then
            let head := accumulated.take maxChars
            let tail := accumulated.drop maxChars
            { st with
              chunks := st.chunks ++ [(⟨pyStrip head, sentence_split (pyStrip head)⟩, .hardCut)]
              buf := [tail]
              bufLen := tail.length }
          else if minChunkChars ≤ st.bufLen then
            flush_buf .minFlush st
          else
            let st2 := flush_buf .forcedFlush
              { st with buf := st.buf ++ [line], bufLen := st.bufLen + lineLen }
            { st2 with i := st.i + 1 }

/-- Fuel-indexed iteration of the chunker loop; `none` means the fuel ran
out (the Python loop can genuinely diverge when `max_chars = 0`, which
the GUI and the spec's interface contract exclude). -/
def chunkLoop (maxChars overflow minChunkChars overlapSentences : Nat)
    (lines : List (List Char)) : Nat → CState → Option (List (Chunk × ChunkOrigin))
  | 0, _ => none
  | fuel + 1, st =>
      match lines.get? st.i with
      | none => some (flush_buf .finalFlush st).chunks
      | some line =>
          chunkLoop maxChars overflow minChunkChars overlapSentences lines fuel
            (chunkStep maxChars overflow minChunkChars overlapSentences st line)

/-- Fuel that always suffices when `1 ≤ maxChars` (proved below). -/
def chunkFuel (lines : List (List Char)) : Nat :=
  lines.length * (lines.join.length + 1) + 1

/-- Instrumented chunker: the chunk list with origin tags. -/
def chunk_text_instr (text : List Char)
    (maxChars overflow minChunkChars overlapSentences : Nat) :
    Option (List (Chunk × ChunkOrigin)) :=
  let lines := pySplitlines true text
  chunkLoop maxChars overflow minChunkChars overlapSentences lines (chunkFuel lines)
    ⟨0, [], 0, []⟩

/-- Model of `chunk_text_by_lines_with_overflow(text, max_chars,
overflow, min_chunk_chars, overlap_sentences)` (source defaults: 3000,
200, 300, 2). -/
def chunk_text_by_lines_with_overflow (text : List Char)
    (maxChars overflow minChunkChars overlapSentences : Nat) : Option (List Chunk) :=
  (chunk_text_instr text maxChars overflow minChunkChars overlapSentences).map
    (List.map Prod.fst)

/-!  The translation side: `SimpleChatAPI` responses, the retry wrapper
`_call_model_with_retry`, and `ChunkTranslator.translate_chunks`. -/

/-- A chat message `{"role": ..., "content": ...}`. -/
structure ChatMessage where
  role : List Char
  content : List Char
deriving DecidableEq, Repr

/-- The `message` sub-object of a choice; `content := none` models a
message dict without a `content` key (`.get('content', '')`). -/
structure ChoiceMessage where
  content : Option (List Char)
deriving DecidableEq, Repr

/-- One element of the `choices` list; `message := none` models a choice
dict without a `message` key (`.get('message', {})`). -/
structure ApiChoice where
  message : Option ChoiceMessage
deriving DecidableEq, Repr

/-- A decoded JSON response of `SimpleChatAPI.chat_completion`:
`choices := none` models a response without a (truthy) `choices` key;
`dump` stands for `json.dumps(resp, ensure_ascii=False)`, the serialized
form of the raw response used by the degraded-success fallback. -/
structure ApiResponse where
  choices : Option (List ApiChoice)
  dump : List Char
deriving DecidableEq, Repr

/-- The success-path extraction of `_call_model_with_retry`:
`choices[0].get('message', {}).get('content', '')` when `choices` is a
non-empty list, otherwise `json.dumps(resp, ensure_ascii=False)`. -/
def extractContent (resp : ApiResponse) : List Char :=
  match resp.choices with
  | some (c :: _) =>
      match c.message with
      | some m => m.content.getD []
      | none => []
  | _ => resp.dump

/-- Decidable equality for `Except`, needed to evaluate concrete runs. -/
instance instDecEqExcept {e a : Type} [DecidableEq e] [DecidableEq a] :
    DecidableEq (Except e a) := fun x y =>
  match x, y with
  | .ok u, .ok v =>
      if h : u = v then .isTrue (by rw [h])
      else .isFalse (by intro hc; cases hc; exact h rfl)
  | .error u, .error v =>
      if h : u = v then .isTrue (by rw [h])
      else .isFalse (by intro hc; cases hc; exact h rfl)
  | .ok _, .error _ => .isFalse (by intro hc; cases hc)
  | .error _, .ok _ => .isFalse (by intro hc; cases hc)

/-- Result of a `_call_model_with_retry` call: the returned text or the
raised error, together with the number of `chat_completion` calls made
and the list of `time.sleep` durations, in order.  Durations are modelled
as rationals; the values involved (`backoff * 2^attempt`) are exact in
the float model as well. -/
structure RetryResult where
  result : Except (List Char) (List Char)
  calls : Nat
  sleeps : List ℚ
deriving DecidableEq, Repr

/-- Worker for `callModelWithRetry`: `attempt` is the current loop index,
`remaining` the number of iterations left (`max_retries + 1` initially),
`lastErr` the latest caught exception text.  The client is a function
from the attempt index to that attempt's outcome. -/
def retryAux (client : Nat → Except (List Char) ApiResponse) (backoff : ℚ) :
    Nat → Nat → Option (List Char) → RetryResult
  | _, 0, lastErr =>
      ⟨.error ("Model call failed: ".toList ++ lastErr.getD "None".toList), 0, []⟩
  | attempt, remaining + 1, _ =>
      match client attempt with
      | .ok resp => ⟨.ok (extractContent resp), 1, []⟩
      | .error e =>
          let rest := retryAux client backoff (attempt + 1) remaining (some e)
          ⟨rest.result, rest.calls + 1, backoff * 2 ^ attempt :: rest.sleeps⟩

/-- Model of `ChunkTranslator._call_model_with_retry` (source default
`max_retries = 2`, `retry_backoff = 1.0`): up to `maxRetries + 1`
attempts; each failed attempt, including the last, is followed by a
`time.sleep(retry_backoff * (2 ** attempt))`; when the loop ends without
a return, a `RuntimeError(f"Model call failed: \x7blast_err\x7d")` is raised. -/
def callModelWithRetry (maxRetries : Nat) (backoff : ℚ)
    (client : Nat → Except (List Char) ApiResponse) : RetryResult :=
  retryAux client backoff 0 (maxRetries + 1) none

/-- Configuration slice of `ChunkTranslator` (source defaults:
`target_lang = 'zh'`, `strategy = 'overlap'`, `overlap_sentences = 2`,
`summary_token_limit = 120`, `max_retries = 2`, `retry_backoff = 1.0`). -/
structure Translator where
  targetLang : List Char
  promptTemplate : List Char
  strategy : List Char
  overlapSentences : Nat
  summaryTokenLimit : Nat
  maxRetries : Nat
  retryBackoff : ℚ
deriving Repr

/-- The default prompt template used when `prompt_template` is `None`. -/
def defaultPromptTemplate : List Char :=
  "请将以下文本翻译为 {target_lang}：\n\n{source}".toList

/-- Substitution model of Python `str.format` restricted to the four
keyword arguments passed by `_build_messages`.  `\x7b\x7b`/`\x7d\x7d` escapes
produce literal braces; a placeholder whose name is not one of the four
keys is reproduced literally (Python would raise `KeyError` there; no
claim exercises that path, and the templates used in the program only
contain the known keys). -/
def pyFormat (source prevSummary prevContext targetLang : List Char) :
    List Char → List Char
  | [] => []
  | '\x7b' :: '\x7b' :: rest => '\x7b' :: pyFormat source prevSummary prevContext targetLang rest
  | '\x7d' :: '\x7d' :: rest => '\x7d' :: pyFormat source prevSummary prevContext targetLang rest
  | '\x7b' :: rest =>
      let key := rest.takeWhile (fun c => c != '\x7d')
      let after := rest.drop (key.length + 1)
      (if key = "source".toList then source
       else if key = "prev_summary".toList then prevSummary
       else if key = "prev_context".toList then prevContext
       else if key = "target_lang".toList then targetLang
       else '\x7b' :: (key ++ ['\x7d'])) ++
        pyFormat source prevSummary prevContext targetLang after
  | c :: rest => c :: pyFormat source prevSummary prevContext targetLang rest
termination_by l => l.length
decreasing_by
  all_goals simp only [List.length_cons, List.length_drop]
  all_goals omega

/-- The fixed system message of `_build_messages`. -/
def systemMessage : List Char :=
  ("You are a professional translator. Keep formatting as plaintext. " ++
   "If the input is code or structured data, preserve code blocks and technical terms.").toList

/-- Model of `ChunkTranslator._build_messages`. -/
def build_messages (tr : Translator) (source prevSummary prevContext : List Char) :
    List ChatMessage :=
  [⟨"system".toList, systemMessage⟩,
   ⟨"user".toList,
    pyFormat source prevSummary prevContext tr.targetLang tr.promptTemplate⟩]

/-- Observable outcome of a `translate_chunks` run: the returned joined
text or the propagated exception, the `(current, total)` progress events,
the log lines, and two instrumentation traces: the `prev_context` value
used for each chunk (in order) and the outcome of each
`_call_model_with_retry` call (the run stops at the first error). -/
structure TransOut where
  result : Except (List Char) (List Char)
  progressEvents : List (Nat × Nat)
  logEvents : List (List Char)
  contexts : List (List Char)
  callResults : List (Except (List Char) (List Char))
deriving DecidableEq, Repr

/-- The context-selection logic at the top of the `translate_chunks`
loop body (lines 265-271 of the source): under the overlap strategy with
a positive sentence count and a non-empty history, the last
`overlap_sentences` sentences of the most recent translated part joined
without separator (empty when that part has no sentences); under the
iterative-summary strategy the running summary; otherwise empty. -/
def selectContext (tr : Translator) (parts : List (List Char))
    (prevSummary : List Char) : List Char :=
  if tr.strategy = "overlap".toList ∧ 0 < tr.overlapSentences ∧ parts ≠ [] then
    let prevSents := sentence_split ((parts.getLast?).getD [])
    if prevSents ≠ [] then
      (prevSents.drop (prevSents.length - tr.overlapSentences)).join
    else []
  else if tr.strategy = "iterative_summary".toList then prevSummary
  else []

/-- The value of an `ok` outcome, defaulting to the empty string. -/
def exceptValueD (r : Except (List Char) (List Char)) : List Char :=
  match r with
  | .ok v => v
  | .error _ => []

/-- The per-chunk loop of `translate_chunks`.  State: the chunks still to
process, the running index `idx`, the `translated_parts` accumulated so
far (in order) and the current `prev_summary`.  The remote client is a
function from the built messages and the attempt number to that
attempt's outcome. -/
def translateLoop (tr : Translator)
    (client : List ChatMessage → Nat → Except (List Char) ApiResponse) (total : Nat) :
    List Chunk → Nat → List (List Char) → List Char → TransOut
  | [], _, parts, _ =>
      ⟨.ok (List.intercalate "\n\n".toList parts), [], [], [], []⟩
  | c :: rest, idx, parts, prevSummary =>
      let prevContext := selectContext tr parts prevSummary
      let msgs := build_messages tr c.text prevSummary prevContext
      let logMsg := "[".toList ++ (toString (idx + 1)).toList ++ "/".toList ++
        (toString total).toList ++ "] sending chunk (".toList ++
        (toString c.text.length).toList ++ " chars)...".toList
      match (callModelWithRetry tr.maxRetries tr.retryBackoff (client msgs)).result with
      | .error e => ⟨.error e, [], [logMsg], [prevContext], [.error e]⟩
      | .ok out =>
          let outS := pyStrip out
          let prevSummary2 := if tr.strategy = "iterative_summary".toList
            then outS.take 80 else prevSummary
          let extraLogs : List (List Char) := if tr.strategy = "iterative_summary".toList
            then ["Generated summary for chunk ".toList ++ (toString (idx + 1)).toList ++
                  ": ".toList ++ outS.take 80]
            else []
          let restOut := translateLoop tr client total rest (idx + 1) (parts ++ [outS]) prevSummary2
          ⟨restOut.result,
           (idx + 1, total) :: restOut.progressEvents,
           logMsg :: (extraLogs ++ restOut.logEvents),
           prevContext :: restOut.contexts,
           .ok out :: restOut.callResults⟩

/-- Model of `ChunkTranslator.translate_chunks(chunks, ...)`. -/
def translate_chunks (tr : Translator)
    (client : List ChatMessage → Nat → Except (List Char) ApiResponse)
    (chunks : List Chunk) : TransOut :=
  translateLoop tr client chunks.length chunks 0 [] []

/-!  Predicates and measures used by the invariant proofs. -/

/-- The non-whitespace characters of `l`, in order.  Two texts that agree
up to whitespace-only differences have equal `rmWs` images, so an `rmWs`
disagreement refutes any "equal up to whitespace" statement. -/
def rmWs (l : List Char) : List Char := l.filter (fun c => !isSpaceChar c)

/-- Concatenation of the texts of a tagged chunk list. -/
def joinTexts (cs : List (Chunk × ChunkOrigin)) : List Char :=
  (cs.map (fun co => co.1.text)).join

/-- The tracked `buf_len` equals the length of the joined buffer. -/
def BufLenOk (st : CState) : Prop := st.bufLen = st.buf.join.length

/-- The joined buffer followed by the unread lines is a contiguous
suffix of the join of all lines. -/
def SuffixInv (lines : List (List Char)) (st : CState) : Prop :=
  ∃ p, p ++ (st.buf.join ++ (lines.drop st.i).join) = lines.join

/-- Lexicographic-style termination measure of the chunker loop. -/
def loopMeasure (lines : List (List Char)) (st : CState) : Nat :=
  (lines.length - st.i) * (lines.join.length + 1) + st.bufLen

/-- The per-chunk invariants established below: the size bound for every
origin other than the hard cut, the sentence fallback and the forced
append-and-flush; the `sentences = sentence_split text` equation for
every origin other than the sentence fallback; and non-emptiness of
`text` for every origin other than the two cut paths. -/
def GoodChunk (maxChars overflow : Nat) (co : Chunk × ChunkOrigin) : Prop :=
  (co.2 ≠ ChunkOrigin.hardCut → co.2 ≠ ChunkOrigin.fallback →
    co.2 ≠ ChunkOrigin.forcedFlush → co.1.text.length ≤ maxChars + overflow) ∧
  (co.2 ≠ ChunkOrigin.fallback → co.1.sentences = sentence_split co.1.text) ∧
  (co.2 ≠ ChunkOrigin.lineCut → co.2 ≠ ChunkOrigin.hardCut → co.1.text ≠ [])

/-- Loop invariant for the size/shape properties. -/
def StepInv (maxChars overflow : Nat) (st : CState) : Prop :=
  BufLenOk st ∧ st.bufLen ≤ maxChars + overflow ∧
    ∀ co ∈ st.chunks, GoodChunk maxChars overflow co

/-- Loop invariant for the coverage property: whitespace aside, the
emitted chunks plus the buffer plus the unread lines hold exactly the
source characters. -/
def CoverInv (lines : List (List Char)) (st : CState) : Prop :=
  BufLenOk st ∧
  rmWs (joinTexts st.chunks ++ st.buf.join ++ (lines.drop st.i).join) = rmWs lines.join

/-!  Generic helper lemmas. -/

theorem length_dropWhile_le {a : Type} (p : a → Bool) (l : List a) :
    (l.dropWhile p).length ≤ l.length := by
  induction l with
  | nil => simp
  | cons c l ih =>
      by_cases h : p c
      · simp only [List.dropWhile_cons, h, if_true, List.length_cons]
        omega
      · simp [List.dropWhile_cons, h]

theorem rmWs_append (a b : List Char) : rmWs (a ++ b) = rmWs a ++ rmWs b := by
  simp [rmWs]

theorem rmWs_join (L : List (List Char)) : rmWs L.join = (L.map rmWs).join := by
  induction L with
  | nil => rfl
  | cons x L ih => simp [List.join, rmWs_append, ih]

theorem rmWs_dropWhile (l : List Char) :
    rmWs (l.dropWhile isSpaceChar) = rmWs l := by
  induction l with
  | nil => rfl
  | cons c l ih =>
      by_cases h : isSpaceChar c
      · simp only [List.dropWhile_cons, h, if_true, ih]
        simp [rmWs, List.filter_cons, h]
      · simp [List.dropWhile_cons, h]

theorem rmWs_reverse (l : List Char) : rmWs l.reverse = (rmWs l).reverse := by
  simp [rmWs]

theorem rmWs_pyStrip (l : List Char) : rmWs (pyStrip l) = rmWs l := by
  unfold pyStrip
  rw [rmWs_reverse, rmWs_dropWhile, rmWs_reverse, List.reverse_reverse, rmWs_dropWhile]

theorem pyStrip_length_le (l : List Char) : (pyStrip l).length ≤ l.length := by
  unfold pyStrip
  have h1 := length_dropWhile_le isSpaceChar l
  have h2 := length_dropWhile_le isSpaceChar (l.dropWhile isSpaceChar).reverse
  simp only [List.length_reverse] at h2 ⊢
  omega

theorem rmWs_eq_nil_of_pyStrip_eq_nil {l : List Char} (h : pyStrip l = []) :
    rmWs l = [] := by
  have := rmWs_pyStrip l
  rw [h] at this
  exact this.symm

theorem dropWhile_eq_nil_of_forall {p : Char → Bool} :
    ∀ {l : List Char}, (∀ c ∈ l, p c) → l.dropWhile p = []
  | [], _ => rfl
  | c :: l, hall => by
      have hc := hall c (List.mem_cons_self c l)
      simp only [List.dropWhile_cons, hc, if_true]
      exact dropWhile_eq_nil_of_forall (fun x hx => hall x (List.mem_cons_of_mem c hx))

theorem pyStrip_eq_nil_of_rmWs_eq_nil {l : List Char} (h : rmWs l = []) :
    pyStrip l = [] := by
  have hall : ∀ c ∈ l, isSpaceChar c := by
    intro c hc
    by_contra hns
    have : c ∈ rmWs l := by
      simp [rmWs, List.mem_filter, hc, hns]
    rw [h] at this
    exact absurd this (List.not_mem_nil c)
  unfold pyStrip
  rw [dropWhile_eq_nil_of_forall hall]
  rfl

theorem pyStrip_ne_nil_of_rmWs_ne_nil {l : List Char} (h : rmWs l ≠ []) :
    pyStrip l ≠ [] := fun hc => h (rmWs_eq_nil_of_pyStrip_eq_nil hc)

/-!  Structure of `pySplitlines` and `sentence_split`. -/

/-- With `keepends = True` the produced lines concatenate back to the
input (so the chunker loop scans a partition of the source text). -/
theorem splitlinesAux_join :
    ∀ (l acc : List Char), (splitlinesAux true l acc).join = acc.reverse ++ l := by
  intro l acc
  induction l, acc using splitlinesAux.induct true with
  | case1 acc hacc =>
      have h0 : acc = [] := by simpa using hacc
      simp [splitlinesAux, h0]
  | case2 acc hacc => simp [splitlinesAux, hacc]
  | case3 c acc hlb ih => simp [splitlinesAux, hlb]
  | case4 c acc hlb ih =>
      simp only [splitlinesAux, hlb, if_false, Bool.false_eq_true] at ih ⊢
      simp at ih
      simp [ih]
  | case5 c c2 rest acc hrn ih =>
      have h1 : c = '\r' ∧ c2 = '\n' := by
        constructor <;> simp_all
      obtain ⟨h1, h2⟩ := h1
      subst h1; subst h2
      simp [splitlinesAux, hrn, ih]
  | case6 c c2 rest acc hrn hlb ih =>
      simp [splitlinesAux, hrn, hlb, ih]
  | case7 c c2 rest acc hrn hlb ih =>
      simp [splitlinesAux, hrn, hlb, ih]

theorem pySplitlines_join (l : List Char) : (pySplitlines true l).join = l := by
  simpa using splitlinesAux_join l []

/-- Every part produced by the match scan is a `pyStrip` image. -/
theorem sentenceScan_fst_strip :
    ∀ (fuel : Nat) (s seg q : List Char),
      q ∈ (sentenceScan fuel s seg).1 → ∃ x, q = pyStrip x := by
  intro fuel
  induction fuel with
  | zero => intro s seg q hq; simp [sentenceScan] at hq
  | succ fuel ih =>
      intro s seg q hq
      cases s with
      | nil => simp [sentenceScan] at hq
      | cons c rest =>
          rw [sentenceScan] at hq
          cases hm : matchAt (c :: rest) with
          | some m =>
              rw [hm] at hq
              simp only [List.mem_cons] at hq
              rcases hq with hq | hq
              · exact ⟨_, hq⟩
              · exact ih _ _ _ hq
          | none =>
              rw [hm] at hq
              exact ih _ _ _ hq

/-- Every element of `sentence_split t` is non-empty and contains a
non-whitespace character (all elements are non-empty `pyStrip` images). -/
theorem sentence_split_mem {t q : List Char} (hq : q ∈ sentence_split t) :
    q ≠ [] ∧ rmWs q ≠ [] := by
  simp only [sentence_split, List.mem_filter] at hq
  obtain ⟨hq2, hne⟩ := hq
  have hqnil : q ≠ [] := by
    intro h0
    rw [h0] at hne
    simp at hne
  refine ⟨hqnil, ?_⟩
  have hstrip : ∃ x, q = pyStrip x := by
    split at hq2
    all_goals try split at hq2
    all_goals try split at hq2
    all_goals
      first
        | (rcases List.mem_filter.mp hq2 with ⟨hmem, -⟩
           rcases List.mem_map.mp hmem with ⟨x, -, hx⟩
           exact ⟨x, hx.symm⟩)
        | (rcases List.mem_append.mp hq2 with h | h <;>
            first
              | exact sentenceScan_fst_strip _ _ _ _ h
              | exact ⟨_, h⟩
              | (rcases List.mem_singleton.mp h with rfl
                 exact ⟨_, rfl⟩)
              | simp at h)
  rcases hstrip with ⟨x, rfl⟩
  intro hrm
  rw [rmWs_pyStrip] at hrm
  exact hqnil (pyStrip_eq_nil_of_rmWs_eq_nil hrm)

/-!  The retry wrapper (claims C4 and C10). -/

theorem retry_sleeps_shift (backoff : ℚ) (a r : Nat) :
    backoff * 2 ^ a :: (List.range (r + 1)).map (fun k => backoff * 2 ^ (a + 1 + k)) =
      (List.range (r + 1 + 1)).map (fun k => backoff * 2 ^ (a + k)) := by
  rw [List.range_succ_eq_map (r + 1), List.map_cons, List.map_map]
  congr 1
  refine List.map_congr_left ?_
  intro k _
  simp only [Function.comp_apply]
  rw [show a + 1 + k = a + Nat.succ k from by omega]

/-- On an always-failing client, the retry loop runs all `r` remaining
iterations, sleeping `backoff * 2^attempt` after each failure, and ends
with an error wrapping the error of the final attempt. -/
theorem retryAux_allFail (errs : Nat → List Char) (backoff : ℚ) :
    ∀ (r a : Nat) (last : Option (List Char)),
      retryAux (fun n => .error (errs n)) backoff a (r + 1) last =
        ⟨.error ("Model call failed: ".toList ++ errs (a + r)), r + 1,
         (List.range (r + 1)).map (fun k => backoff * 2 ^ (a + k))⟩ := by
  intro r
  induction r with
  | zero =>
      intro a last
      simp [retryAux, List.range_succ]
  | succ r ih =>
      intro a last
      have step : retryAux (fun n => .error (errs n)) backoff a (r + 1 + 1) last =
          ⟨(retryAux (fun n => .error (errs n)) backoff (a + 1) (r + 1) (some (errs a))).result,
           (retryAux (fun n => .error (errs n)) backoff (a + 1) (r + 1) (some (errs a))).calls + 1,
           backoff * 2 ^ a ::
             (retryAux (fun n => .error (errs n)) backoff (a + 1) (r + 1) (some (errs a))).sleeps⟩ :=
        rfl
      rw [step, ih (a + 1)]
      congr 1
      · rw [show a + 1 + r = a + (r + 1) from by omega]
      · exact retry_sleeps_shift backoff a r

/-- C4 (counterexample): with an always-failing client, `maxRetries = 2`
and `retryBackoff = 1`, `_call_model_with_retry` sleeps three times (with
durations `1`, `2` and `4`), not exactly twice as the claim states: the
loop body sleeps after every failed attempt, including the final one,
before the wrapping error is raised. -/
theorem C4_counterexample :
    (callModelWithRetry 2 1 (fun _ => Except.error ['E'])).sleeps = [1, 2, 4] ∧
    (callModelWithRetry 2 1 (fun _ => Except.error ['E'])).sleeps.length = 3 ∧
    (callModelWithRetry 2 1 (fun _ => Except.error ['E'])).calls = 3 := by
  refine ⟨?_, rfl, rfl⟩
  simp [callModelWithRetry, retryAux]
  norm_num

/-- C4 (amended): given a translation client whose every call fails and
any `maxRetries`, `_call_model_with_retry` makes exactly `maxRetries + 1`
call attempts, sleeps after every failed attempt — including the last —
with durations `retryBackoff * 2^attempt` for `attempt = 0 .. maxRetries`
(so `maxRetries + 1` sleeps in total, the first two being `retryBackoff*1`
and `retryBackoff*2`), and then raises an error wrapping the last
underlying error. -/
theorem C4_amended_retry_schedule (maxRetries : Nat) (backoff : ℚ)
    (errs : Nat → List Char) :
    callModelWithRetry maxRetries backoff (fun n => .error (errs n)) =
      ⟨.error ("Model call failed: ".toList ++ errs maxRetries), maxRetries + 1,
       (List.range (maxRetries + 1)).map (fun a => backoff * 2 ^ a)⟩ := by
  unfold callModelWithRetry
  rw [retryAux_allFail]
  norm_num

/-- C10: if the first attempt succeeds with a response whose `choices`
list is non-empty but whose first choice lacks a `message` key, or whose
message lacks a `content` key, then `_call_model_with_retry` returns the
empty string as a success: one single call, no sleep, no retry, no
error. -/
theorem C10_missing_content_fields (maxRetries : Nat) (backoff : ℚ) (dump : List Char) :
    callModelWithRetry maxRetries backoff (fun _ => .ok ⟨some [⟨none⟩], dump⟩) =
      ⟨.ok [], 1, []⟩ ∧
    callModelWithRetry maxRetries backoff (fun _ => .ok ⟨some [⟨some ⟨none⟩⟩], dump⟩) =
      ⟨.ok [], 1, []⟩ :=
  ⟨rfl, rfl⟩

/-!  The chunker on concrete inputs (claim C3 and the counterexamples of
C1, C2 and C6). -/

/-- C3 (counterexample): on a single line of 500 characters with no
sentence terminators and `maxChars = 100` (the other parameters at their
source defaults), the chunker returns exactly one chunk, of length 500 —
not five chunks of at most 100 characters: the sentence fallback puts an
oversized single sentence into `cur` unconditionally (`or not cur`) and
never flushes inside the loop. -/
theorem C3_counterexample :
    (chunk_text_by_lines_with_overflow (List.replicate 500 'a') 100 200 300 2).map
      (fun cs => (cs.length, cs.map (fun c => c.text.length))) = some (1, [500]) := by
  decide

/-- C3 (amended): on a single line of 500 characters with no sentence
terminators and `maxChars = 100`, all 500 characters are consumed into
exactly one chunk whose text is the whole line and whose `sentences`
list is the single whole-line sentence. -/
theorem C3_amended_single_chunk :
    chunk_text_by_lines_with_overflow (List.replicate 500 'a') 100 200 300 2 =
      some [⟨List.replicate 500 'a', [List.replicate 500 'a']⟩] := by
  decide

/-- C1 (counterexample): with `maxChars = 5`, `overflow = 0`,
`minChunkChars = 0` and `overlapSentences = 1`, the input
`"ab. cd. ef. gh"` is chunked into texts `"ab."`, `"ab.cd."`, `"cd.ef."`,
`"ef.gh"`: the concatenation duplicates the sentences seeded by the
overlap carry-over of the sentence fallback, so it does not reconstruct
the source even after deleting all whitespace. -/
theorem C1_counterexample :
    (chunk_text_by_lines_with_overflow "ab. cd. ef. gh".toList 5 0 0 1).map
      (fun cs => (cs.map Chunk.text).join) = some "ab.ab.cd.cd.ef.ef.gh".toList ∧
    rmWs "ab.ab.cd.cd.ef.ef.gh".toList ≠ rmWs "ab. cd. ef. gh".toList := by
  exact ⟨by decide, by decide⟩

/-- C2 (counterexample): with `maxChars = 10`, `overflow = 0`,
`minChunkChars = 5` and `overlapSentences = 0`, the input `"ab\n" ++ 20
`c`s produces a single chunk of length 23 > 10 + 0 from the undersized-
buffer forced append-and-flush branch, which is neither the forced hard
cut nor the sentence fallback. -/
theorem C2_counterexample :
    (chunk_text_instr ("ab\n".toList ++ List.replicate 20 'c') 10 0 5 0).map
      (fun cs => cs.map (fun co => (co.1.text.length, co.2))) =
      some [(23, ChunkOrigin.forcedFlush)] ∧ ¬(23 ≤ 10 + 0) :=
  ⟨by decide, by decide⟩

/-- C6 (counterexample): with `maxChars = 5`, `overflow = 0`,
`minChunkChars = 0` and `overlapSentences = 1`, chunking
`"ab. cd. ef. gh"` produces a chunk (text `"ab.cd."`, sentences
`["ab.", "cd."]`) whose stored `sentences` differ from
`sentence_split` of its `text` (which is `["ab.cd."]`): the sentence
fallback stores the raw accumulated sentence list instead. -/
theorem C6_counterexample :
    (chunk_text_by_lines_with_overflow "ab. cd. ef. gh".toList 5 0 0 1).map
      (fun cs => cs.all (fun c => decide (c.sentences = sentence_split c.text))) =
      some false := by
  decide

/-!  `translate_chunks` (claims C5, C8 and C9). -/

/-- C9: calling `translate_chunks` with an empty chunk list returns the
empty string as a success, makes no translation-client calls and emits
no progress or log events. -/
theorem C9_empty_run (tr : Translator)
    (client : List ChatMessage → Nat → Except (List Char) ApiResponse) :
    translate_chunks tr client [] = ⟨.ok [], [], [], [], []⟩ := rfl

theorem translateLoop_contexts_head (tr : Translator)
    (client : List ChatMessage → Nat → Except (List Char) ApiResponse)
    (total : Nat) (c : Chunk) (rest : List Chunk) (idx : Nat)
    (parts : List (List Char)) (prevSummary : List Char) :
    (translateLoop tr client total (c :: rest) idx parts prevSummary).contexts.get? 0 =
      some (selectContext tr parts prevSummary) := by
  rw [translateLoop]
  split <;> rfl

/-- Unfolding of one loop iteration whose remote call (after retries)
succeeds. -/
theorem translateLoop_cons_ok (tr : Translator)
    (client : List ChatMessage → Nat → Except (List Char) ApiResponse)
    (total : Nat) (c : Chunk) (rest : List Chunk) (idx : Nat)
    (parts : List (List Char)) (prevSummary out : List Char)
    (h : (callModelWithRetry tr.maxRetries tr.retryBackoff
        (client (build_messages tr c.text prevSummary
          (selectContext tr parts prevSummary)))).result = .ok out) :
    translateLoop tr client total (c :: rest) idx parts prevSummary =
      (let restOut := translateLoop tr client total rest (idx + 1)
          (parts ++ [pyStrip out])
          (if tr.strategy = "iterative_summary".toList then (pyStrip out).take 80
           else prevSummary)
       ⟨restOut.result,
        (idx + 1, total) :: restOut.progressEvents,
        ("[".toList ++ (toString (idx + 1)).toList ++ "/".toList ++
          (toString total).toList ++ "] sending chunk (".toList ++
          (toString c.text.length).toList ++ " chars)...".toList) ::
          ((if tr.strategy = "iterative_summary".toList then
              ["Generated summary for chunk ".toList ++ (toString (idx + 1)).toList ++
               ": ".toList ++ (pyStrip out).take 80]
            else []) ++ restOut.logEvents),
        selectContext tr parts prevSummary :: restOut.contexts,
        .ok out :: restOut.callResults⟩) := by
  rw [translateLoop, h]

/-- Unfolding of one loop iteration whose remote call exhausts its
retries: the error propagates as the run result, unmodified. -/
theorem translateLoop_cons_error (tr : Translator)
    (client : List ChatMessage → Nat → Except (List Char) ApiResponse)
    (total : Nat) (c : Chunk) (rest : List Chunk) (idx : Nat)
    (parts : List (List Char)) (prevSummary e : List Char)
    (h : (callModelWithRetry tr.maxRetries tr.retryBackoff
        (client (build_messages tr c.text prevSummary
          (selectContext tr parts prevSummary)))).result = .error e) :
    translateLoop tr client total (c :: rest) idx parts prevSummary =
      ⟨.error e, [],
       [("[".toList ++ (toString (idx + 1)).toList ++ "/".toList ++
          (toString total).toList ++ "] sending chunk (".toList ++
          (toString c.text.length).toList ++ " chars)...".toList)],
       [selectContext tr parts prevSummary], [.error e]⟩ := by
  rw [translateLoop, h]

/-- C5: under `strategy = overlap` with `overlapSentences = 2`, if the
first chunk translates to an output whose trimmed text splits into the
sentences `[s1, s2, s3]`, the context passed with the second chunk is
`s2 ++ s3` (no separator), and the context passed with the first chunk —
when nothing has been translated yet — is empty. -/
theorem C5_overlap_context (tr : Translator)
    (client : List ChatMessage → Nat → Except (List Char) ApiResponse)
    (c0 c1 : Chunk) (rest : List Chunk) (t s1 s2 s3 : List Char)
    (hstrat : tr.strategy = "overlap".toList)
    (hover : tr.overlapSentences = 2)
    (hfirst : (callModelWithRetry tr.maxRetries tr.retryBackoff
        (client (build_messages tr c0.text [] []))).result = .ok t)
    (hsents : sentence_split (pyStrip t) = [s1, s2, s3]) :
    (translate_chunks tr client (c0 :: c1 :: rest)).contexts.get? 0 = some [] ∧
    (translate_chunks tr client (c0 :: c1 :: rest)).contexts.get? 1 = some (s2 ++ s3) := by
  have h0 : selectContext tr [] [] = [] := by
    simp [selectContext, hstrat,
      show ¬("overlap".toList = "iterative_summary".toList) from by decide]
  constructor
  · unfold translate_chunks
    rw [translateLoop_contexts_head, h0]
  · unfold translate_chunks
    rw [translateLoop_cons_ok tr client _ c0 (c1 :: rest) 0 [] [] t (by rw [h0]; exact hfirst)]
    simp only [List.get?]
    rw [translateLoop_contexts_head]
    congr 1
    simp [selectContext, hstrat, hover, hsents]

/-- C5 (witness): a concrete two-chunk run with a stub client returning
`"A. B. C"`; the first context is empty and the second is `"B." ++ "C"`. -/
theorem C5_overlap_context_witness :
    sentence_split (pyStrip "A. B. C".toList) = ["A.".toList, "B.".toList, "C".toList] ∧
    (translate_chunks ⟨"zh".toList, "{source}".toList, "overlap".toList, 2, 120, 2, 1⟩
        (fun _ _ => .ok ⟨some [⟨some ⟨some "A. B. C".toList⟩⟩], []⟩)
        [⟨"x".toList, ["x".toList]⟩, ⟨"y".toList, ["y".toList]⟩]).contexts.get? 0 =
      some [] ∧
    (translate_chunks ⟨"zh".toList, "{source}".toList, "overlap".toList, 2, 120, 2, 1⟩
        (fun _ _ => .ok ⟨some [⟨some ⟨some "A. B. C".toList⟩⟩], []⟩)
        [⟨"x".toList, ["x".toList]⟩, ⟨"y".toList, ["y".toList]⟩]).contexts.get? 1 =
      some ("B.".toList ++ "C".toList) := by
  have h := C5_overlap_context
    ⟨"zh".toList, "{source}".toList, "overlap".toList, 2, 120, 2, 1⟩
    (fun _ _ => .ok ⟨some [⟨some ⟨some "A. B. C".toList⟩⟩], []⟩)
    ⟨"x".toList, ["x".toList]⟩ ⟨"y".toList, ["y".toList]⟩ []
    "A. B. C".toList "A.".toList "B.".toList "C".toList
    rfl rfl rfl (by decide)
  exact ⟨by decide, h.1, h.2⟩

/-- The translation loop either fails with exactly the first failing
retry outcome (all earlier calls succeeded) or succeeds with the
blank-line join of the history and the trimmed call outputs. -/
theorem translateLoop_spec (tr : Translator)
    (client : List ChatMessage → Nat → Except (List Char) ApiResponse) (total : Nat) :
    ∀ (chunks : List Chunk) (idx : Nat) (parts : List (List Char)) (prevSummary : List Char),
      (∀ e, (translateLoop tr client total chunks idx parts prevSummary).result = .error e →
          (translateLoop tr client total chunks idx parts prevSummary).callResults.getLast? =
            some (.error e) ∧
          ∀ r ∈ (translateLoop tr client total chunks idx parts prevSummary).callResults.dropLast,
            ∃ v, r = .ok v) ∧
      (∀ s, (translateLoop tr client total chunks idx parts prevSummary).result = .ok s →
          (∀ r ∈ (translateLoop tr client total chunks idx parts prevSummary).callResults,
            ∃ v, r = .ok v) ∧
          s = List.intercalate "\n\n".toList
                (parts ++
                  (translateLoop tr client total chunks idx parts prevSummary).callResults.map
                    (fun r => pyStrip (exceptValueD r)))) := by
  intro chunks
  induction chunks with
  | nil =>
      intro idx parts prevSummary
      constructor
      · intro e he
        simp [translateLoop] at he
      · intro s hs
        simp only [translateLoop, Except.ok.injEq] at hs
        refine ⟨by simp [translateLoop], ?_⟩
        simp [translateLoop, hs.symm]
  | cons c rest ih =>
      intro idx parts prevSummary
      cases hcall : (callModelWithRetry tr.maxRetries tr.retryBackoff
          (client (build_messages tr c.text prevSummary
            (selectContext tr parts prevSummary)))).result with
      | error e0 =>
          rw [translateLoop_cons_error tr client total c rest idx parts prevSummary e0 hcall]
          constructor
          · intro e he
            simp only [Except.error.injEq] at he
            subst he
            exact ⟨rfl, by simp⟩
          · intro s hs
            simp at hs
      | ok out =>
          rw [translateLoop_cons_ok tr client total c rest idx parts prevSummary out hcall]
          simp only []
          obtain ⟨ihE, ihOk⟩ := ih (idx + 1) (parts ++ [pyStrip out])
            (if tr.strategy = "iterative_summary".toList then (pyStrip out).take 80
             else prevSummary)
          constructor
          · intro e he
            obtain ⟨hlast, hdrop⟩ := ihE e he
            cases hcr : (translateLoop tr client total rest (idx + 1) (parts ++ [pyStrip out])
                (if tr.strategy = "iterative_summary".toList then (pyStrip out).take 80
                 else prevSummary)).callResults with
            | nil =>
                rw [hcr] at hlast
                simp at hlast
            | cons r0 crs =>
                rw [hcr] at hlast hdrop
                constructor
                · simpa using hlast
                · intro r hr
                  simp only [List.dropLast_cons₂, List.mem_cons] at hr
                  rcases hr with hr | hr
                  · exact ⟨out, hr⟩
                  · exact hdrop r hr
          · intro s hs
            obtain ⟨hAll, hEq⟩ := ihOk s hs
            constructor
            · intro r hr
              rcases List.mem_cons.mp hr with hr | hr
              · exact ⟨out, hr⟩
              · exact hAll r hr
            · rw [hEq]
              simp [exceptValueD, List.append_assoc]

/-- C8: if the translation of some chunk fails after its retry budget,
the whole run aborts: the run result is exactly that error, unmodified
(it is the recorded outcome of the last retry call, all earlier calls
having succeeded), and no joined output is produced.  Otherwise every
call succeeded and the run returns the trimmed chunk translations joined
with a blank-line separator. -/
theorem C8_abort_or_join (tr : Translator)
    (client : List ChatMessage → Nat → Except (List Char) ApiResponse)
    (chunks : List Chunk) :
    (∀ e, (translate_chunks tr client chunks).result = .error e →
        (translate_chunks tr client chunks).callResults.getLast? = some (.error e) ∧
        ∀ r ∈ (translate_chunks tr client chunks).callResults.dropLast, ∃ v, r = .ok v) ∧
    (∀ s, (translate_chunks tr client chunks).result = .ok s →
        (∀ r ∈ (translate_chunks tr client chunks).callResults, ∃ v, r = .ok v) ∧
        s = List.intercalate "\n\n".toList
              ((translate_chunks tr client chunks).callResults.map
                (fun r => pyStrip (exceptValueD r)))) := by
  have h := translateLoop_spec tr client chunks.length chunks 0 [] []
  unfold translate_chunks
  simpa using h

/-- C8 (witness): a concrete one-chunk run against an always-failing
client with `maxRetries = 0` aborts with the wrapped error of the single
call, which is also the last (and only) recorded call outcome. -/
theorem C8_abort_or_join_witness :
    (translate_chunks ⟨"zh".toList, "{source}".toList, "overlap".toList, 2, 120, 0, 1⟩
        (fun _ _ => .error "E".toList) [⟨"hi".toList, ["hi".toList]⟩]).result =
      .error "Model call failed: E".toList ∧
    (translate_chunks ⟨"zh".toList, "{source}".toList, "overlap".toList, 2, 120, 0, 1⟩
        (fun _ _ => .error "E".toList) [⟨"hi".toList, ["hi".toList]⟩]).callResults.getLast? =
      some (.error "Model call failed: E".toList) ∧
    ∀ r ∈ (translate_chunks ⟨"zh".toList, "{source}".toList, "overlap".toList, 2, 120, 0, 1⟩
        (fun _ _ => .error "E".toList) [⟨"hi".toList, ["hi".toList]⟩]).callResults.dropLast,
      ∃ v, r = .ok v := by
  have h := (C8_abort_or_join ⟨"zh".toList, "{source}".toList, "overlap".toList, 2, 120, 0, 1⟩
      (fun _ _ => .error "E".toList) [⟨"hi".toList, ["hi".toList]⟩]).1
      "Model call failed: E".toList rfl
  exact ⟨rfl, h.1, h.2⟩

end AITrans

namespace AITrans

theorem pyStrip_join_ne_nil {S : List (List Char)}
    (hS : ∀ x ∈ S, x ≠ [] ∧ rmWs x ≠ []) :
    ∀ (cur : List (List Char)), (∀ x ∈ cur, x ∈ S) → cur ≠ [] →
      pyStrip cur.join ≠ [] := by
  intro cur hcur hne hnil
  obtain ⟨c0, cs, rfl⟩ := List.exists_cons_of_ne_nil hne
  have h0 := hS c0 (hcur c0 (List.mem_cons_self c0 cs))
  have h1 := rmWs_eq_nil_of_pyStrip_eq_nil hnil
  rw [show (c0 :: cs).join = c0 ++ cs.join from rfl, rmWs_append] at h1
  exact h0.2 (List.append_eq_nil.mp h1).1

theorem findCut_le (acc : List Char) (lo : Nat) :
    ∀ (hi p : Nat), findCut acc lo hi = some p → lo ≤ p ∧ p ≤ hi := by
  intro hi
  induction hi with
  | zero =>
      intro p h
      rw [findCut] at h
      split at h
      · exact absurd h (by simp)
      · split at h
        · cases h
          omega
        · exact absurd h (by simp)
  | succ hi ih =>
      intro p h
      rw [findCut] at h
      split at h
      · exact absurd h (by simp)
      · split at h
        · cases h
          omega
        · have := ih p h
          omega

theorem sentenceSubSplit_good (mc os : Nat) (S : List (List Char))
    (hS : ∀ x ∈ S, x ≠ [] ∧ rmWs x ≠ []) :
    ∀ (sents cur : List (List Char)) (curLen : Nat) (acc : List Chunk),
      (∀ x ∈ cur, x ∈ S) → (∀ x ∈ sents, x ∈ S) →
      (∀ c ∈ acc, c.text ≠ []) →
      (∀ c ∈ (sentenceSubSplit mc os sents cur curLen acc).1, c.text ≠ []) ∧
      (∀ x ∈ (sentenceSubSplit mc os sents cur curLen acc).2, x ∈ S) := by
  intro sents
  induction sents with
  | nil =>
      intro cur curLen acc hcur hsents hacc
      exact ⟨hacc, hcur⟩
  | cons s ss ih =>
      intro cur curLen acc hcur hsents hacc
      have hsS : s ∈ S := hsents s (List.mem_cons_self s ss)
      have hssS : ∀ x ∈ ss, x ∈ S := fun x hx => hsents x (List.mem_cons_of_mem s hx)
      rw [sentenceSubSplit]
      split
      · exact ih (cur ++ [s]) (curLen + s.length) acc
          (by intro x hx
              rcases List.mem_append.mp hx with hx | hx
              · exact hcur x hx
              · rcases List.mem_singleton.mp hx with rfl; exact hsS)
          hssS hacc
      · rename_i hcond
        have hcne : cur ≠ [] := by
          intro h0
          exact hcond (Or.inr h0)
        refine ih _ _ _ ?_ hssS ?_
        · intro x hx
          rcases List.mem_append.mp hx with hx | hx
          · split at hx
            · exact hcur x (List.drop_subset _ _ hx)
            · simp at hx
          · rcases List.mem_singleton.mp hx with rfl; exact hsS
        · intro c hc
          rcases List.mem_append.mp hc with hc | hc
          · exact hacc c hc
          · rcases List.mem_singleton.mp hc with rfl
            exact pyStrip_join_ne_nil hS cur hcur hcne

end AITrans

namespace AITrans

theorem flush_buf_inv (mc ov : Nat) (o : ChunkOrigin) (st : CState)
    (hlen : BufLenOk st)
    (hall : ∀ co ∈ st.chunks, GoodChunk mc ov co)
    (hbound : st.buf.join.length ≤ mc + ov ∨ o = ChunkOrigin.forcedFlush) :
    BufLenOk (flush_buf o st) ∧ (flush_buf o st).bufLen ≤ mc + ov ∧
    (∀ co ∈ (flush_buf o st).chunks, GoodChunk mc ov co) ∧
    (flush_buf o st).i = st.i := by
  unfold flush_buf
  split
  · rename_i hemp
    have h0 : st.buf = [] := by simpa using hemp
    refine ⟨hlen, ?_, hall, rfl⟩
    rw [hlen, h0]
    simp
  · refine ⟨?_, by simp, ?_, rfl⟩
    · simp [BufLenOk]
    · intro co hco
      simp only [List.mem_append] at hco
      rcases hco with hco | hco
      · exact hall co hco
      · split at hco
        · simp at hco
        · rename_i hjoined
          rcases List.mem_singleton.mp hco with rfl
          refine ⟨?_, fun _ => rfl, ?_⟩
          · intro h1 h2 h3
            rcases hbound with hb | hb
            · calc (pyStrip st.buf.join).length ≤ st.buf.join.length := pyStrip_length_le _
                _ ≤ mc + ov := hb
            · exact absurd hb h3
          · intro _ _
            simpa using hjoined

theorem join_append_len (buf : List (List Char)) (line : List Char) :
    ((buf ++ [line]).join).length = buf.join.length + line.length := by
  simp

theorem chunkStep_inv (mc ov mk os : Nat)
    (st : CState) (line : List Char)
    (h : StepInv mc ov st) : StepInv mc ov (chunkStep mc ov mk os st line) := by
  obtain ⟨hlen, hble, hall⟩ := h
  have hlen2 : st.bufLen = st.buf.join.length := hlen
  simp only [chunkStep]
  split
  · -- plain append
    rename_i h1
    refine ⟨?_, ?_, hall⟩
    · unfold BufLenOk
      dsimp only
      rw [join_append_len, hlen]
    · dsimp only
      omega
  · split
    · -- append + overflow flush
      rename_i h1 h2
      have hf := flush_buf_inv mc ov .overflowFlush
        { st with buf := st.buf ++ [line], bufLen := st.bufLen + line.length }
        (by unfold BufLenOk
            dsimp only
            rw [join_append_len, hlen]) hall
        (Or.inl (by dsimp only
                    rw [join_append_len, ← hlen]
                    omega))
      exact ⟨hf.1, hf.2.1, hf.2.2.1⟩
    · split
      · -- sentence fallback
        rename_i h1 h2 hacc
        have hgood := sentenceSubSplit_good mc os (sentence_split line)
          (fun x hx => sentence_split_mem hx)
          (sentence_split line) [] 0 []
          (by intro x hx; simp at hx) (fun x hx => hx) (by intro c hc; simp at hc)
        refine ⟨hlen, hble, ?_⟩
        intro co hco
        rcases List.mem_append.mp hco with hco | hco
        · exact hall co hco
        · rcases List.mem_map.mp hco with ⟨c, hc, rfl⟩
          refine ⟨fun _ hf => absurd rfl hf, fun hf => absurd rfl hf, ?_⟩
          intro _ _
          rcases List.mem_append.mp hc with hc | hc
          · exact hgood.1 c hc
          · split at hc
            · simp at hc
            · rename_i hc2
              rcases List.mem_singleton.mp hc with rfl
              refine pyStrip_join_ne_nil (fun x hx => sentence_split_mem hx) _ hgood.2 ?_
              simpa using hc2
      · -- the cut family
        rename_i h1 h2 hacc
        split
        · -- lineCut at position p + 1
          rename_i p heq
          have hfc : findCut st.buf.join (mc - ov) (min st.buf.join.length mc) = some (p + 1) := by
            split at heq
            · exact heq
            · simp at heq
          have hb := findCut_le st.buf.join (mc - ov) _ _ hfc
          have hacc1 : 1 ≤ st.buf.join.length := by
            rcases Nat.eq_zero_or_pos st.buf.join.length with h0 | h0
            · exact absurd h0 hacc
            · omega
          refine ⟨by simp [BufLenOk], ?_, ?_⟩
          · dsimp only
            simp only [List.length_drop]
            omega
          · intro co hco
            rcases List.mem_append.mp hco with hco | hco
            · exact hall co hco
            · rcases List.mem_singleton.mp hco with rfl
              refine ⟨?_, fun _ => rfl, fun hf _ => absurd rfl hf⟩
              intro _ _ _
              calc (pyStrip (st.buf.join.take (p + 1))).length
                  ≤ (st.buf.join.take (p + 1)).length := pyStrip_length_le _
                _ ≤ p + 1 := by simp
                _ ≤ mc + ov := by omega
        · -- hard cut / min flush / forced flush
          split
          · -- hard cut
            rename_i hge
            refine ⟨by simp [BufLenOk], ?_, ?_⟩
            · dsimp only
              simp only [List.length_drop]
              omega
            · intro co hco
              rcases List.mem_append.mp hco with hco | hco
              · exact hall co hco
              · rcases List.mem_singleton.mp hco with rfl
                exact ⟨fun hf => absurd rfl hf, fun _ => rfl, fun _ hf => absurd rfl hf⟩
          · split
            · -- min flush
              rename_i hmk
              have hf := flush_buf_inv mc ov .minFlush st hlen hall (Or.inl (by omega))
              exact ⟨hf.1, hf.2.1, hf.2.2.1⟩
            · -- forced append + flush
              have hf := flush_buf_inv mc ov .forcedFlush
                { st with buf := st.buf ++ [line], bufLen := st.bufLen + line.length }
                (by unfold BufLenOk
                    dsimp only
                    rw [join_append_len, hlen]) hall (Or.inr rfl)
              exact ⟨hf.1, hf.2.1, hf.2.2.1⟩
end AITrans

namespace AITrans

theorem drop_eq_cons_of_get : ∀ (l : List (List Char)) (i : Nat) (a : List Char),
    l.get? i = some a → l.drop i = a :: l.drop (i + 1) := by
  intro l
  induction l with
  | nil => intro i a h; simp at h
  | cons x xs ih =>
      intro i a h
      cases i with
      | zero =>
          simp at h
          subst h
          simp
      | succ i =>
          simp only [List.get?] at h
          simp only [List.drop]
          exact ih i a h

theorem flush_buf_clears (o : ChunkOrigin) (st : CState) (h : st.buf ≠ []) :
    (flush_buf o st).buf = [] ∧ (flush_buf o st).bufLen = 0 ∧ (flush_buf o st).i = st.i := by
  unfold flush_buf
  split
  · rename_i he
    exact absurd (by simpa using he) h
  · exact ⟨rfl, rfl, rfl⟩

theorem measure_advance_lt {n i L b b2 : Nat} (hi : i < n) (hb2 : b2 ≤ L) :
    (n - (i + 1)) * (L + 1) + b2 < (n - i) * (L + 1) + b := by
  have h1 : n - i = (n - (i + 1)) + 1 := by omega
  rw [h1, Nat.succ_mul]
  calc (n - (i + 1)) * (L + 1) + b2
      < (n - (i + 1)) * (L + 1) + (L + 1 + b) := Nat.add_lt_add_left (by omega) _
    _ = (n - (i + 1)) * (L + 1) + (L + 1) + b := by ring

theorem chunkStep_progress (mc ov mk os : Nat) (lines : List (List Char))
    (st : CState) (line : List Char)
    (hget : lines.get? st.i = some line)
    (hlen : BufLenOk st) (hsuf : SuffixInv lines st) (hmc : 1 ≤ mc) :
    BufLenOk (chunkStep mc ov mk os st line) ∧
    SuffixInv lines (chunkStep mc ov mk os st line) ∧
    loopMeasure lines (chunkStep mc ov mk os st line) < loopMeasure lines st := by
  have hlen2 : st.bufLen = st.buf.join.length := hlen
  obtain ⟨pre, hpre⟩ := hsuf
  have hdd : lines.drop st.i = line :: lines.drop (st.i + 1) :=
    drop_eq_cons_of_get lines st.i line hget
  have hi : st.i < lines.length := by
    have h := congrArg List.length hdd
    simp only [List.length_drop, List.length_cons] at h
    omega
  rw [hdd] at hpre
  simp only [List.join_cons] at hpre
  have hL : pre.length + (st.buf.join.length + (line.length +
      (lines.drop (st.i + 1)).join.length)) = lines.join.length := by
    have h := congrArg List.length hpre
    simpa using h
  simp only [chunkStep]
  split
  · -- plain append
    rename_i h1
    refine ⟨?_, ⟨pre, ?_⟩, ?_⟩
    · unfold BufLenOk
      dsimp only
      rw [join_append_len, hlen2]
    · dsimp only
      simpa [List.join_append, List.append_assoc] using hpre
    · unfold loopMeasure
      dsimp only
      exact measure_advance_lt hi (by omega)
  · split
    · -- append + overflow flush
      rename_i h1 h2
      have hcl := flush_buf_clears .overflowFlush
        { st with buf := st.buf ++ [line], bufLen := st.bufLen + line.length } (by simp)
      refine ⟨?_, ⟨pre ++ st.buf.join ++ line, ?_⟩, ?_⟩
      · unfold BufLenOk
        dsimp only
        rw [hcl.1, hcl.2.1]
        rfl
      · dsimp only
        rw [hcl.1]
        simpa [List.append_assoc] using hpre
      · unfold loopMeasure
        dsimp only
        rw [hcl.2.1]
        exact measure_advance_lt hi (by omega)
    · split
      · -- sentence fallback: the buffer join is empty
        rename_i h1 h2 hacc
        have hB : st.buf.join = [] := List.length_eq_zero.mp hacc
        refine ⟨hlen, ⟨pre ++ line, ?_⟩, ?_⟩
        · dsimp only
          rw [hB] at hpre ⊢
          simpa [List.append_assoc] using hpre
        · unfold loopMeasure
          dsimp only
          exact measure_advance_lt hi (by omega)
      · -- the cut family
        rename_i h1 h2 hacc
        have hBpos : 1 ≤ st.buf.join.length := by
          rcases Nat.eq_zero_or_pos st.buf.join.length with h0 | h0
          · exact absurd h0 hacc
          · omega
        have hkey : ∀ (k : Nat) (X : List Char),
            st.buf.join.take k ++ (st.buf.join.drop k ++ X) = st.buf.join ++ X := by
          intro k X
          rw [← List.append_assoc, List.take_append_drop]
        split
        · -- lineCut at p + 1
          rename_i p heq
          refine ⟨?_, ⟨pre ++ st.buf.join.take (p + 1), ?_⟩, ?_⟩
          · unfold BufLenOk
            dsimp only
            simp
          · dsimp only
            rw [hdd]
            simp only [List.join_cons, List.join_nil, List.append_nil, List.append_assoc]
            rw [hkey]
            simpa [List.append_assoc] using hpre
          · unfold loopMeasure
            dsimp only
            apply Nat.add_lt_add_left
            simp only [List.length_drop]
            omega
        · split
          · -- hard cut
            rename_i hge
            refine ⟨?_, ⟨pre ++ st.buf.join.take mc, ?_⟩, ?_⟩
            · unfold BufLenOk
              dsimp only
              simp
            · dsimp only
              rw [hdd]
              simp only [List.join_cons, List.join_nil, List.append_nil, List.append_assoc]
              rw [hkey]
              simpa [List.append_assoc] using hpre
            · unfold loopMeasure
              dsimp only
              apply Nat.add_lt_add_left
              simp only [List.length_drop]
              omega
          · split
            · -- min flush
              rename_i hmk
              have hbne : st.buf ≠ [] := by
                intro h0
                rw [h0] at hBpos
                simp at hBpos
              have hcl := flush_buf_clears .minFlush st hbne
              refine ⟨?_, ⟨pre ++ st.buf.join, ?_⟩, ?_⟩
              · unfold BufLenOk
                rw [hcl.1, hcl.2.1]
                rfl
              · rw [hcl.1, hcl.2.2, hdd]
                simp only [List.join_cons, List.join_nil, List.append_nil, List.append_assoc]
                simpa [List.append_assoc] using hpre
              · unfold loopMeasure
                rw [hcl.2.1, hcl.2.2]
                apply Nat.add_lt_add_left
                omega
            · -- forced append + flush
              have hcl := flush_buf_clears .forcedFlush
                { st with buf := st.buf ++ [line], bufLen := st.bufLen + line.length } (by simp)
              refine ⟨?_, ⟨pre ++ st.buf.join ++ line, ?_⟩, ?_⟩
              · unfold BufLenOk
                dsimp only
                rw [hcl.1, hcl.2.1]
                rfl
              · dsimp only
                rw [hcl.1]
                simpa [List.append_assoc] using hpre
              · unfold loopMeasure
                dsimp only
                rw [hcl.2.1]
                exact measure_advance_lt hi (by omega)
end AITrans

namespace AITrans

theorem chunkLoop_good (mc ov mk os : Nat) (lines : List (List Char)) :
    ∀ (fuel : Nat) (st : CState) (cs : List (Chunk × ChunkOrigin)),
      StepInv mc ov st →
      chunkLoop mc ov mk os lines fuel st = some cs →
      ∀ co ∈ cs, GoodChunk mc ov co := by
  intro fuel
  induction fuel with
  | zero =>
      intro st cs _ h
      simp [chunkLoop] at h
  | succ fuel ih =>
      intro st cs hinv h
      rw [chunkLoop] at h
      cases hget : lines.get? st.i with
      | none =>
          rw [hget] at h
          simp only [Option.some.injEq] at h
          have hlen2 : st.bufLen = st.buf.join.length := hinv.1
          have hf := flush_buf_inv mc ov .finalFlush st hinv.1 hinv.2.2
            (Or.inl (by have := hinv.2.1; omega))
          intro co hco
          exact hf.2.2.1 co (h ▸ hco)
      | some line =>
          rw [hget] at h
          exact ih _ cs (chunkStep_inv mc ov mk os st line hinv) h

theorem initial_state_inv (mc ov : Nat) : StepInv mc ov ⟨0, [], 0, []⟩ := by
  refine ⟨rfl, Nat.zero_le _, ?_⟩
  intro co hco
  simp at hco

theorem chunk_text_instr_good (text : List Char) (mc ov mk os : Nat)
    (cs : List (Chunk × ChunkOrigin))
    (h : chunk_text_instr text mc ov mk os = some cs) :
    ∀ co ∈ cs, GoodChunk mc ov co := by
  unfold chunk_text_instr at h
  exact chunkLoop_good mc ov mk os (pySplitlines true text) _ _ cs
    (initial_state_inv mc ov) h

/-- C2 (amended): every chunk produced by
`chunk_text_by_lines_with_overflow` whose origin is not the forced hard
cut, not the sentence fallback, and also not the undersized-buffer
forced append-and-flush (the extra path the spec sentence omits),
satisfies `text.length ≤ maxChars + overflow`. -/
theorem C2_amended_bound (text : List Char) (mc ov mk os : Nat)
    (cs : List (Chunk × ChunkOrigin)) (c : Chunk) (o : ChunkOrigin)
    (h : chunk_text_instr text mc ov mk os = some cs)
    (hmem : (c, o) ∈ cs)
    (h1 : o ≠ ChunkOrigin.hardCut) (h2 : o ≠ ChunkOrigin.fallback)
    (h3 : o ≠ ChunkOrigin.forcedFlush) :
    c.text.length ≤ mc + ov :=
  (chunk_text_instr_good text mc ov mk os cs h (c, o) hmem).1 h1 h2 h3

/-- C6 (amended): for every chunk produced by
`chunk_text_by_lines_with_overflow`, (a) if its origin is not the
sentence fallback then its `sentences` field equals `sentence_split` of
its `text` field as computed at flush time, and (b) if its origin is not
one of the two cut paths (which strip the cut prefix and may strip it to
nothing) then its `text` is non-empty. -/
theorem C6_amended_invariants (text : List Char) (mc ov mk os : Nat)
    (cs : List (Chunk × ChunkOrigin)) (c : Chunk) (o : ChunkOrigin)
    (h : chunk_text_instr text mc ov mk os = some cs)
    (hmem : (c, o) ∈ cs) :
    (o ≠ ChunkOrigin.fallback → c.sentences = sentence_split c.text) ∧
    (o ≠ ChunkOrigin.lineCut → o ≠ ChunkOrigin.hardCut → c.text ≠ []) :=
  ⟨(chunk_text_instr_good text mc ov mk os cs h (c, o) hmem).2.1,
   (chunk_text_instr_good text mc ov mk os cs h (c, o) hmem).2.2⟩

theorem chunkLoop_isSome (mc ov mk os : Nat) (lines : List (List Char)) (hmc : 1 ≤ mc) :
    ∀ (fuel : Nat) (st : CState),
      BufLenOk st → SuffixInv lines st → loopMeasure lines st < fuel →
      (chunkLoop mc ov mk os lines fuel st).isSome := by
  intro fuel
  induction fuel with
  | zero =>
      intro st _ _ hm
      omega
  | succ fuel ih =>
      intro st hb hs hm
      rw [chunkLoop]
      cases hget : lines.get? st.i with
      | none => simp
      | some line =>
          have hp := chunkStep_progress mc ov mk os lines st line hget hb hs hmc
          exact ih _ hp.1 hp.2.1 (by have := hp.2.2; omega)

/-- C7: `chunk_text_by_lines_with_overflow` terminates for every input
whenever `maxChars ≥ 1` (the spec's parameter validity range): the fuel
`chunkFuel`, which is `O(lines * chars)`, always suffices, and the empty
text yields an empty chunk sequence. -/
theorem C7_termination (text : List Char) (mc ov mk os : Nat) :
    (1 ≤ mc → (chunk_text_by_lines_with_overflow text mc ov mk os).isSome) ∧
    chunk_text_by_lines_with_overflow [] mc ov mk os = some [] := by
  constructor
  · intro hmc
    unfold chunk_text_by_lines_with_overflow chunk_text_instr
    have hmea : loopMeasure (pySplitlines true text) ⟨0, [], 0, []⟩ <
        chunkFuel (pySplitlines true text) := by
      unfold loopMeasure chunkFuel
      simp only [Nat.sub_zero, Nat.add_zero]
      exact Nat.lt_succ_self _
    have h := chunkLoop_isSome mc ov mk os (pySplitlines true text) hmc
      (chunkFuel (pySplitlines true text)) ⟨0, [], 0, []⟩ rfl ⟨[], by simp⟩ hmea
    obtain ⟨cs, hcs⟩ := Option.isSome_iff_exists.mp h
    simp [hcs]
  · rfl
end AITrans

namespace AITrans

theorem rmWs_nil : rmWs [] = [] := rfl

theorem joinTexts_append (a b : List (Chunk × ChunkOrigin)) :
    joinTexts (a ++ b) = joinTexts a ++ joinTexts b := by
  simp [joinTexts]

theorem flush_buf_i (o : ChunkOrigin) (st : CState) : (flush_buf o st).i = st.i := by
  unfold flush_buf
  split <;> rfl

theorem flush_buf_lenOk (o : ChunkOrigin) (st : CState) (h : BufLenOk st) :
    BufLenOk (flush_buf o st) := by
  unfold flush_buf
  split
  · exact h
  · rfl

theorem flush_buf_cover (o : ChunkOrigin) (st : CState) :
    rmWs (joinTexts (flush_buf o st).chunks) ++ rmWs (flush_buf o st).buf.join =
    rmWs (joinTexts st.chunks) ++ rmWs st.buf.join := by
  unfold flush_buf
  split
  · rfl
  · dsimp only
    split
    · rename_i hj
      have h0 : rmWs st.buf.join = [] := rmWs_eq_nil_of_pyStrip_eq_nil (by simpa using hj)
      simp [h0, rmWs_nil]
    · simp [joinTexts_append, joinTexts, rmWs_append, rmWs_pyStrip, rmWs_nil]

theorem chunkStep_cover (mc ov mk os : Nat) (lines : List (List Char))
    (st : CState) (line : List Char)
    (hget : lines.get? st.i = some line)
    (hlines : ∀ l ∈ lines, l.length ≤ mc + ov)
    (hcov : CoverInv lines st) :
    CoverInv lines (chunkStep mc ov mk os st line) := by
  obtain ⟨hlen, hx⟩ := hcov
  have hlen2 : st.bufLen = st.buf.join.length := hlen
  have hdd : lines.drop st.i = line :: lines.drop (st.i + 1) :=
    drop_eq_cons_of_get lines st.i line hget
  have hlline : line.length ≤ mc + ov := hlines line (by
    have hmem : line ∈ lines.drop st.i := by rw [hdd]; exact List.mem_cons_self _ _
    exact List.mem_of_mem_drop hmem)
  rw [hdd] at hx
  simp only [List.join_cons] at hx
  simp only [rmWs_append, List.append_assoc] at hx
  have hkey : ∀ k : Nat, rmWs (st.buf.join.take k) ++ rmWs (st.buf.join.drop k) =
      rmWs st.buf.join := by
    intro k
    rw [← rmWs_append, List.take_append_drop]
  simp only [chunkStep]
  split
  · -- plain append
    rename_i h1
    refine ⟨?_, ?_⟩
    · unfold BufLenOk
      dsimp only
      rw [join_append_len, hlen2]
    · dsimp only
      simp only [List.join_append, List.join_cons, List.join_nil, List.append_nil,
        rmWs_append, List.append_assoc]
      exact hx
  · split
    · -- append + overflow flush
      rename_i h1 h2
      have hgoal : rmWs (joinTexts (flush_buf .overflowFlush { st with buf := st.buf ++ [line], bufLen := st.bufLen + line.length }).chunks) ++
          (rmWs (flush_buf .overflowFlush { st with buf := st.buf ++ [line], bufLen := st.bufLen + line.length }).buf.join ++
           rmWs (lines.drop (st.i + 1)).join) = rmWs lines.join := by
        rw [← List.append_assoc, flush_buf_cover]
        dsimp only
        simp only [List.join_append, List.join_cons, List.join_nil, List.append_nil,
          rmWs_append, List.append_assoc]
        exact hx
      refine ⟨?_, ?_⟩
      · have hb : BufLenOk { st with buf := st.buf ++ [line], bufLen := st.bufLen + line.length } := by
          unfold BufLenOk
          dsimp only
          rw [join_append_len, hlen2]
        exact flush_buf_lenOk _ _ hb
      · dsimp only
        simp only [rmWs_append, List.append_assoc]
        exact hgoal
    · split
      · -- sentence fallback is unreachable when every line fits the tolerance
        rename_i h1 h2 hacc
        exfalso
        have : st.bufLen = 0 := by rw [hlen2, hacc]
        omega
      · -- the cut family
        rename_i h1 h2 hacc
        split
        · -- lineCut at p + 1
          rename_i p heq
          refine ⟨by unfold BufLenOk; dsimp only; simp, ?_⟩
          dsimp only
          rw [hdd]
          simp only [joinTexts, List.map_append, List.map_cons, List.map_nil,
            List.join_cons, List.join_nil, List.join_append, List.append_nil,
            rmWs_append, rmWs_pyStrip, List.append_assoc, rmWs_nil]
          rw [← List.append_assoc (rmWs (st.buf.join.take (p + 1))), hkey]
          simpa [joinTexts, rmWs_append, List.append_assoc] using hx
        · split
          · -- hard cut
            rename_i hge
            refine ⟨by unfold BufLenOk; dsimp only; simp, ?_⟩
            dsimp only
            rw [hdd]
            simp only [joinTexts, List.map_append, List.map_cons, List.map_nil,
              List.join_cons, List.join_nil, List.join_append, List.append_nil,
              rmWs_append, rmWs_pyStrip, List.append_assoc, rmWs_nil]
            rw [← List.append_assoc (rmWs (st.buf.join.take mc)), hkey]
            simpa [joinTexts, rmWs_append, List.append_assoc] using hx
          · split
            · -- min flush
              rename_i hmk
              have hgoal : rmWs (joinTexts (flush_buf .minFlush st).chunks) ++
                  (rmWs (flush_buf .minFlush st).buf.join ++
                   (rmWs line ++ rmWs (lines.drop (st.i + 1)).join)) = rmWs lines.join := by
                rw [← List.append_assoc, flush_buf_cover]
                simp only [List.append_assoc]
                exact hx
              refine ⟨flush_buf_lenOk _ _ hlen, ?_⟩
              rw [flush_buf_i, hdd]
              simp only [List.join_cons, rmWs_append, List.append_assoc]
              exact hgoal
            · -- forced append + flush
              have hgoal : rmWs (joinTexts (flush_buf .forcedFlush { st with buf := st.buf ++ [line], bufLen := st.bufLen + line.length }).chunks) ++
                  (rmWs (flush_buf .forcedFlush { st with buf := st.buf ++ [line], bufLen := st.bufLen + line.length }).buf.join ++
                   rmWs (lines.drop (st.i + 1)).join) = rmWs lines.join := by
                rw [← List.append_assoc, flush_buf_cover]
                dsimp only
                simp only [List.join_append, List.join_cons, List.join_nil, List.append_nil,
                  rmWs_append, List.append_assoc]
                exact hx
              refine ⟨?_, ?_⟩
              · have hb : BufLenOk { st with buf := st.buf ++ [line], bufLen := st.bufLen + line.length } := by
                  unfold BufLenOk
                  dsimp only
                  rw [join_append_len, hlen2]
                exact flush_buf_lenOk _ _ hb
              · dsimp only
                simp only [rmWs_append, List.append_assoc]
                exact hgoal
theorem chunkLoop_cover (mc ov mk os : Nat) (lines : List (List Char))
    (hlines : ∀ l ∈ lines, l.length ≤ mc + ov) :
    ∀ (fuel : Nat) (st : CState) (cs : List (Chunk × ChunkOrigin)),
      CoverInv lines st →
      chunkLoop mc ov mk os lines fuel st = some cs →
      rmWs (joinTexts cs) = rmWs lines.join := by
  intro fuel
  induction fuel with
  | zero =>
      intro st cs _ h
      simp [chunkLoop] at h
  | succ fuel ih =>
      intro st cs hcov h
      rw [chunkLoop] at h
      cases hget : lines.get? st.i with
      | none =>
          rw [hget] at h
          simp only [Option.some.injEq] at h
          obtain ⟨hlen, hx⟩ := hcov
          have hdrop : lines.drop st.i = [] :=
            List.drop_eq_nil_of_le (List.get?_eq_none.mp hget)
          rw [hdrop] at hx
          simp only [List.join_nil, List.append_nil, rmWs_append] at hx
          have hf := flush_buf_cover ChunkOrigin.finalFlush st
          have hbuf : rmWs ((flush_buf ChunkOrigin.finalFlush st).buf.join) = [] := by
            by_cases hb : st.buf = []
            · simp [flush_buf, hb, rmWs_nil]
            · rw [(flush_buf_clears ChunkOrigin.finalFlush st hb).1]
              simp [rmWs_nil]
          rw [hbuf, List.append_nil] at hf
          subst h
          rw [hf]
          exact hx
      | some line =>
          rw [hget] at h
          exact ih _ cs (chunkStep_cover mc ov mk os lines st line hget hlines hcov) h

theorem initial_cover (lines : List (List Char)) : CoverInv lines ⟨0, [], 0, []⟩ := by
  refine ⟨rfl, ?_⟩
  simp [joinTexts, rmWs_nil]

/-- C1 (amended): whenever every keepends line of the input is no longer
than `maxChars + overflow` (so the sentence-fallback path, whose overlap
seeding duplicates text, is never taken), concatenating the `text`
fields of the chunks returned by `chunk_text_by_lines_with_overflow`, in
order, reconstructs the input text up to whitespace: deleting every
whitespace character from the concatenation yields exactly the input
with its whitespace deleted — no content is lost and none duplicated. -/
theorem C1_amended_coverage (text : List Char) (mc ov mk os : Nat) (cs : List Chunk)
    (hlines : ∀ l ∈ pySplitlines true text, l.length ≤ mc + ov)
    (h : chunk_text_by_lines_with_overflow text mc ov mk os = some cs) :
    rmWs ((cs.map Chunk.text).join) = rmWs text := by
  unfold chunk_text_by_lines_with_overflow at h
  cases hi : chunk_text_instr text mc ov mk os with
  | none =>
      rw [hi] at h
      simp at h
  | some ics =>
      rw [hi] at h
      simp only [Option.map_some', Option.some.injEq] at h
      subst h
      have hcov := chunkLoop_cover mc ov mk os (pySplitlines true text) hlines
        (chunkFuel (pySplitlines true text)) ⟨0, [], 0, []⟩ ics (initial_cover _) hi
      rw [pySplitlines_join] at hcov
      simpa [joinTexts, Function.comp, List.map_map] using hcov
theorem C1_amended_coverage_witness :
    (∀ l ∈ pySplitlines true ("ab\ncd\n".toList), l.length ≤ 4 + 0) ∧
    rmWs ((([⟨"ab".toList, ["ab".toList]⟩, ⟨"cd".toList, ["cd".toList]⟩] :
      List Chunk).map Chunk.text).join) = rmWs ("ab\ncd\n".toList) :=
  ⟨by decide, C1_amended_coverage "ab\ncd\n".toList 4 0 0 2
    [⟨"ab".toList, ["ab".toList]⟩, ⟨"cd".toList, ["cd".toList]⟩]
    (by decide) (by decide)⟩

theorem C2_amended_bound_witness :
    ("abc\nabc".toList.length ≤ 6 + 3) :=
  C2_amended_bound "abc\nabc\nabc\n".toList 6 3 2 2
    [(⟨"abc\nabc".toList, ["abc\nabc".toList]⟩, ChunkOrigin.overflowFlush),
     (⟨"abc".toList, ["abc".toList]⟩, ChunkOrigin.finalFlush)]
    ⟨"abc\nabc".toList, ["abc\nabc".toList]⟩ ChunkOrigin.overflowFlush
    (by decide) (by decide) (by decide) (by decide) (by decide)

theorem C6_amended_invariants_witness :
    ((ChunkOrigin.finalFlush ≠ ChunkOrigin.fallback →
        (["abc".toList] : List (List Char)) = sentence_split ("abc".toList)) ∧
     (ChunkOrigin.finalFlush ≠ ChunkOrigin.lineCut →
        ChunkOrigin.finalFlush ≠ ChunkOrigin.hardCut → ("abc".toList : List Char) ≠ [])) :=
  C6_amended_invariants "abc\nabc\nabc\n".toList 6 3 2 2
    [(⟨"abc\nabc".toList, ["abc\nabc".toList]⟩, ChunkOrigin.overflowFlush),
     (⟨"abc".toList, ["abc".toList]⟩, ChunkOrigin.finalFlush)]
    ⟨"abc".toList, ["abc".toList]⟩ ChunkOrigin.finalFlush
    (by decide) (by decide)

theorem C7_termination_witness :
    (chunk_text_by_lines_with_overflow (List.replicate 3 'a') 1 0 0 0).isSome = true ∧
    chunk_text_by_lines_with_overflow ([] : List Char) 1 0 0 0 = some [] :=
  ⟨(C7_termination (List.replicate 3 'a') 1 0 0 0).1 (by decide),
   (C7_termination ([] : List Char) 1 0 0 0).2⟩
end AITrans
